import Mathlib

/-!
Verification of the multi-agent research CLI core against its design document.

The development shallowly embeds the deadline-bounded stage scheduler
(`withBudget` / `msLeft`), the validation cache (`ValidationCache`), the
retrieval diversifier (`diversifySources` / `isEnglishLike`), the credibility
confidence computation (`calculateConfidence` / `calculateSourceQuality`), the
bounded-concurrency executor (`ParallelProcessor`) and the unified pipeline
orchestrator (`runPipeline`).  Machine integers are modelled as `Int`/`Nat`,
JS floating point arithmetic as `Rat`, JS promises by explicit settle times,
and platform parsers (`new URL`, `new Date`) as explicit function parameters.
-/

namespace MACli

/-! ### Budget scheduler (src/unnamed/part_003, `msLeft` / `withBudget`)

A task is modelled by the instant at which its promise settles together with
the outcome it settles to.  `Promise.race` settles with whichever branch
settles first; with equal settle times the first promise listed (the primary
task) wins.
-/

/-- Settlement of a JS promise: fulfilled with a value or rejected with an
error. -/
inductive Outcome (ε α : Type) where
  | ok : α → Outcome ε α
  | err : ε → Outcome ε α
deriving DecidableEq, Repr

/-- A task as seen by the scheduler: the time (ms after the call) at which it
settles and the outcome it settles to. -/
structure TimedTask (ε α : Type) where
  time : ℕ
  outcome : Outcome ε α

/-- Result of `withBudget`: the outcome the returned promise settles to, and
whether the timer branch (which invokes the fallback) was ever created. -/
structure BudgetRun (ε α : Type) where
  result : Outcome ε α
  fallbackStarted : Bool

/-- `msLeft(deadline)` from part_003: `null` means no deadline (`+∞`, encoded
as `none`), otherwise `Math.max(0, deadline - Date.now())`. -/
def msLeft (deadline : Option ℤ) (now : ℤ) : Option ℤ :=
  deadline.map (fun d => max 0 (d - now))

/-- The timeout slice computed by `withBudget`:
`Math.max(minMs, Math.floor(left * ratio))`, absent when the remaining time is
infinite (in which case `withBudget` returns the primary task directly). -/
def budgetSlice (deadline : Option ℤ) (now : ℤ) (ratio : ℚ) (minMs : ℤ) : Option ℤ :=
  (msLeft deadline now).map (fun left => max minMs ⌊(left : ℚ) * ratio⌋)

/-- `withBudget` from part_003.  With no deadline the primary task's promise is
returned as-is.  Otherwise the primary races against a branch that sleeps for
the slice and then runs the fallback; the race settles with whichever branch
settles first. -/
def withBudget {ε α : Type} (deadline : Option ℤ) (now : ℤ) (ratio : ℚ) (minMs : ℤ)
    (task fallback : TimedTask ε α) : BudgetRun ε α :=
  match budgetSlice deadline now ratio minMs with
  | none => ⟨task.outcome, false⟩
  | some slice =>
      if (task.time : ℤ) ≤ slice + (fallback.time : ℤ) then ⟨task.outcome, true⟩
      else ⟨fallback.outcome, true⟩

/-! ### Data model (packages/core/src/types.ts) -/

/-- `Source` from types.ts: optional title/snippet/publication date and a URL. -/
structure Source where
  title : Option String := none
  url : String
  snippet : Option String := none
  published : Option String := none
deriving DecidableEq, Repr

/-! ### Validation cache (packages/core/src/modules/cache.ts)

A JS `Map` is modelled as an association list in insertion order: `set` on an
existing key updates it in place, a new key is appended, and
`keys().next().value` is the head of the list.
-/

/-- A stored cache entry: the payload and the `Date.now()` of its insertion. -/
structure CacheItem (V : Type) where
  data : V
  timestamp : ℤ
deriving DecidableEq, Repr

/-- `Map.get`. -/
def mapGet {V : Type} : List (String × CacheItem V) → String → Option (CacheItem V)
  | [], _ => none
  | (k', it) :: rest, k => if k' = k then some it else mapGet rest k

/-- `Map.set`: update in place if the key exists, otherwise append. -/
def mapSet {V : Type} : List (String × CacheItem V) → String → CacheItem V →
    List (String × CacheItem V)
  | [], k, it => [(k, it)]
  | (k', it') :: rest, k, it =>
      if k' = k then (k, it) :: rest else (k', it') :: mapSet rest k it

/-- `Map.delete`. -/
def mapDelete {V : Type} (m : List (String × CacheItem V)) (k : String) :
    List (String × CacheItem V) :=
  m.filter (fun e => e.1 ≠ k)

/-- The `ValidationCache` state: capacity, time-to-live, and the underlying
map in insertion order. -/
structure VCache (V : Type) where
  maxSize : ℕ
  ttl : ℤ
  entries : List (String × CacheItem V)

/-- Lexicographic comparison of character lists by code unit, the order JS
`Array.sort()`'s default comparator induces on strings. -/
def charListLe : List Char → List Char → Bool
  | [], _ => true
  | _ :: _, [] => false
  | c :: cs, d :: ds =>
      if c.toNat < d.toNat then true
      else if d.toNat < c.toNat then false
      else charListLe cs ds

/-- The URL list sorted by JS `Array.sort()`'s default string order. -/
def sortedUrls (sources : List Source) : List String :=
  (sources.map (fun s => s.url)).insertionSort
    (fun a b => charListLe a.data b.data = true)

/-- JS `Array.join('|')`. -/
def joinPipe : List String → String
  | [] => ""
  | [u] => u
  | u :: rest => u ++ "|" ++ joinPipe rest

/-- `ValidationCache.generateKey`: the claim text and the sorted candidate URLs
joined with the pipe character. -/
def generateKey (fact : String) (sources : List Source) : String :=
  fact ++ "|" ++ joinPipe (sortedUrls sources)

/-- `ValidationCache.get` at instant `now`.  Returns the payload (or `none` on
a miss) together with the possibly-mutated cache (an expired entry is deleted
on lookup).  An empty claim short-circuits to a miss. -/
def cacheGet {V : Type} (c : VCache V) (fact : String) (sources : List Source)
    (now : ℤ) : Option V × VCache V :=
  if fact = "" then (none, c)
  else
    let key := generateKey fact sources
    match mapGet c.entries key with
    | none => (none, c)
    | some item =>
        if c.ttl < now - item.timestamp then
          (none, { c with entries := mapDelete c.entries key })
        else (some item.data, c)

/-- `ValidationCache.set` at instant `now`.  An empty claim is ignored; when
the map is at capacity the first-inserted entry is evicted (the JS guard
`if (oldestKey)` skips a falsy, i.e. empty, key). -/
def cacheSet {V : Type} (c : VCache V) (fact : String) (sources : List Source)
    (data : V) (now : ℤ) : VCache V :=
  if fact = "" then c
  else
    let key := generateKey fact sources
    let pruned :=
      if c.maxSize ≤ c.entries.length then
        match c.entries.head? with
        | some (k0, _) => if k0 = "" then c.entries else mapDelete c.entries k0
        | none => c.entries
      else c.entries
    { c with entries := mapSet pruned key ⟨data, now⟩ }

/-! ### Retrieval diversifier (src/unnamed/part_003, `diversifySources`)

`new URL(url).hostname` is passed in as an explicit function `dom` (part_003's
`domainOf`, returning `''` when the URL fails to parse).  JS object identity
in `picked.includes(s)` is modelled by pairing every pool element with its
array index. -/

/-- One codepoint of the CJK test `/[一-鿿぀-ヿ가-힯]/`. -/
def hasCJKChar (c : Char) : Bool :=
  (0x4e00 ≤ c.toNat && c.toNat ≤ 0x9fff) ||
  (0x3040 ≤ c.toNat && c.toNat ≤ 0x30ff) ||
  (0xac00 ≤ c.toNat && c.toNat ≤ 0xd7af)

/-- `hasCJK` from part_003. -/
def hasCJK (s : String) : Bool := s.data.any hasCJKChar

/-- `isEnglishLike` from part_003: the concatenated title, snippet and URL
contain no CJK codepoint. -/
def isEnglishLike (title snippet : Option String) (url : String) : Bool :=
  !(hasCJK ((title.getD "") ++ " " ++ (snippet.getD "") ++ " " ++ url))

/-- A pool source is foreign (English-like) for the diversifier. -/
def foreignSrc (s : Source) : Bool := isEnglishLike s.title s.snippet s.url

/-- `byDomain.get(d) || 0`. -/
def domGet : List (String × ℕ) → String → ℕ
  | [], _ => 0
  | (d', n) :: rest, d => if d' = d then n else domGet rest d

/-- `byDomain.set(d, n)`. -/
def domSet : List (String × ℕ) → String → ℕ → List (String × ℕ)
  | [], d, n => [(d, n)]
  | (d', n') :: rest, d, n =>
      if d' = d then (d, n) :: rest else (d', n') :: domSet rest d n

/-- Mutable state of `diversifySources`: the per-domain admission counts, the
picked sources (tagged with their pool index) and the English-like count. -/
structure DivState where
  byDomain : List (String × ℕ)
  picked : List (ℕ × Source)
  enCount : ℕ

/-- First (greedy) pass of `diversifySources`: admit pool sources in order,
capping admissions per domain, stopping once `k` are picked. -/
def pass1 (dom : String → String) (maxPerDomain k : ℕ) :
    List (ℕ × Source) → DivState → DivState
  | [], st => st
  | (i, s) :: rest, st =>
      let d := dom s.url
      let used := domGet st.byDomain d
      if maxPerDomain ≤ used then pass1 dom maxPerDomain k rest st
      else
        let st' : DivState :=
          ⟨domSet st.byDomain d (used + 1), st.picked ++ [(i, s)],
            st.enCount + (if foreignSrc s then 1 else 0)⟩
        if k ≤ st'.picked.length then st' else pass1 dom maxPerDomain k rest st'

/-- Backfill pass of `diversifySources`: add not-yet-picked foreign sources
(still capped per domain) until the foreign minimum is met or `k + 3` sources
are picked. -/
def pass2 (dom : String → String) (maxPerDomain minEn k : ℕ) :
    List (ℕ × Source) → DivState → DivState
  | [], st => st
  | (i, s) :: rest, st =>
      if st.picked.any (fun p => p.1 = i) then pass2 dom maxPerDomain minEn k rest st
      else if !(foreignSrc s) then pass2 dom maxPerDomain minEn k rest st
      else
        let d := dom s.url
        let used := domGet st.byDomain d
        if maxPerDomain ≤ used then pass2 dom maxPerDomain minEn k rest st
        else
          let st' : DivState :=
            ⟨domSet st.byDomain d (used + 1), st.picked ++ [(i, s)], st.enCount + 1⟩
          if minEn ≤ st'.enCount ∨ k + 3 ≤ st'.picked.length then st'
          else pass2 dom maxPerDomain minEn k rest st'

/-- The `picked` array of `diversifySources` just before the final
`slice(0, k)`, with pool indices. -/
def diversifyPicked (dom : String → String) (maxPerDomain minEn : ℕ)
    (sources : List Source) (k : ℕ) : List (ℕ × Source) :=
  let st1 := pass1 dom maxPerDomain k sources.enum ⟨[], [], 0⟩
  let st2 :=
    if st1.enCount < minEn then pass2 dom maxPerDomain minEn k sources.enum st1
    else st1
  st2.picked

/-- `diversifySources` from part_003: both passes followed by
`picked.slice(0, k)`. -/
def diversifySources (dom : String → String) (maxPerDomain minEn : ℕ)
    (sources : List Source) (k : ℕ) : List Source :=
  ((diversifyPicked dom maxPerDomain minEn sources k).map Prod.snd).take k

/-! ### Credibility evaluator (packages/core/src/modules/credibility.ts)

`new URL(...).hostname` and `new Date(...).getTime()` are platform parsers and
are passed in through `CredEnv` (`parseDate` returns `none` for an invalid
date, whose `NaN` comparisons all fail in JS).  The `AUTHORITY_DOMAINS` table
lives in config.ts, which is not part of the sources; it is kept as an
explicit parameter `tbl`. -/

/-- The platform environment of the credibility evaluator. -/
structure CredEnv where
  parseHost : String → Option String
  parseDate : String → Option ℤ
  now : ℤ

/-- JS `Math.round`: half-integers round toward positive infinity. -/
def jsRound (q : ℚ) : ℤ := ⌊q + 1 / 2⌋

/-- Clamp to the unit interval (`Math.max(0, Math.min(1, x))`). -/
def clamp01 (q : ℚ) : ℚ := max 0 (min 1 q)

/-- Does `pat` occur at the start of `s` (character lists)? -/
def leadMatch : List Char → List Char → Bool
  | [], _ => true
  | _ :: _, [] => false
  | c :: cs, d :: ds => c = d && leadMatch cs ds

/-- JS `String.includes`: does `pat` occur anywhere inside `s`? -/
def subMatch : List Char → List Char → Bool
  | pat, [] => pat.isEmpty
  | pat, c :: rest' => leadMatch pat (c :: rest') || subMatch pat rest'

/-- The `AUTHORITY_DOMAINS` lookup: first table entry contained in the
hostname wins, default `0.5`. -/
def authorityScoreOf (tbl : List (String × ℚ)) (hostname : String) : ℚ :=
  match tbl.find? (fun e => subMatch e.1.data hostname.data) with
  | some e => e.2
  | none => 1 / 2

/-- The per-source contribution inside `calculateSourceQuality`: an
unparseable URL contributes `0.3`; otherwise
`authorityScore * 0.7 + timeScore * 0.3` with the documented time-decay
steps (an unparseable date yields the final `0.6` step, as every `NaN`
comparison is false). -/
def sourceScore1 (env : CredEnv) (tbl : List (String × ℚ)) (s : Source) : ℚ :=
  match env.parseHost s.url with
  | none => 3 / 10
  | some host =>
      let hostname := host.toLower
      let authorityScore := authorityScoreOf tbl hostname
      let timeScore : ℚ :=
        match s.published with
        | none => 1
        | some p =>
            if p = "" then 1
            else
              match env.parseDate p with
              | none => 3 / 5
              | some t =>
                  let daysDiff : ℚ := ((env.now - t : ℤ) : ℚ) / 86400000
                  if daysDiff ≤ 7 then 1
                  else if daysDiff ≤ 30 then 9 / 10
                  else if daysDiff ≤ 90 then 4 / 5
                  else if daysDiff ≤ 365 then 7 / 10
                  else 3 / 5
      authorityScore * (7 / 10) + timeScore * (3 / 10)

/-- `CredibilityEvaluator.calculateSourceQuality`: mean per-source score scaled
to `[0,100]`, rounded and clamped; empty input gives `0`. -/
def calculateSourceQuality (env : CredEnv) (tbl : List (String × ℚ))
    (sources : List Source) : ℤ :=
  if sources.length = 0 then 0
  else
    let total := (sources.map (sourceScore1 env tbl)).sum
    let finalScore := jsRound (total / (sources.length : ℚ) * 100)
    max 0 (min 100 finalScore)

/-- `CredibilityEvaluator.calculateConfidence` as written:
`round(100 * clamp01(0.6 * supportRatio + 0.4 * avgSupportQuality - penalty))`
where the penalty accumulates `quality * 0.3` over every contradicting
source. -/
def calculateConfidence (env : CredEnv) (tbl : List (String × ℚ))
    (supporting contradicting : List Source) : ℤ :=
  let total := supporting.length + contradicting.length
  if total = 0 then 0
  else
    let supportRatio : ℚ := (supporting.length : ℚ) / (total : ℚ)
    let weightedSupport : ℚ :=
      (supporting.map (fun s => (calculateSourceQuality env tbl [s] : ℚ) / 100)).sum
    let avgSourceQuality : ℚ :=
      if 0 < supporting.length then weightedSupport / (supporting.length : ℚ) else 0
    let contradictionPenalty : ℚ :=
      (contradicting.map
        (fun s => (calculateSourceQuality env tbl [s] : ℚ) / 100 * (3 / 10))).sum
    let confidence := clamp01 (supportRatio * (3 / 5) + avgSourceQuality * (2 / 5)
      - contradictionPenalty)
    jsRound (confidence * 100)

/-- The confidence formula exactly as the specification states it:
`round(100 * clamp01(0.6*supportRatio + 0.4*meanQuality(supporting)
- 0.3*meanQuality(contradicting)))`, with the per-source quality score scaled
to `[0,1]` and an empty side contributing mean `0`. -/
def specConfidence (env : CredEnv) (tbl : List (String × ℚ))
    (supporting contradicting : List Source) : ℤ :=
  let total := supporting.length + contradicting.length
  if total = 0 then 0
  else
    let supportRatio : ℚ := (supporting.length : ℚ) / (total : ℚ)
    let meanSup : ℚ :=
      if supporting.length = 0 then 0
      else (supporting.map (fun s => (calculateSourceQuality env tbl [s] : ℚ) / 100)).sum
        / (supporting.length : ℚ)
    let meanCon : ℚ :=
      if contradicting.length = 0 then 0
      else (contradicting.map (fun s => (calculateSourceQuality env tbl [s] : ℚ) / 100)).sum
        / (contradicting.length : ℚ)
    jsRound (100 * clamp01 (3 / 5 * supportRatio + 2 / 5 * meanSup - 3 / 10 * meanCon))

/-- The confidence formula amended to what the code computes: the
contradiction term is `0.3` times the **sum** of the contradicting sources'
qualities, not `0.3` times their mean. -/
def specConfidenceAmended (env : CredEnv) (tbl : List (String × ℚ))
    (supporting contradicting : List Source) : ℤ :=
  let total := supporting.length + contradicting.length
  if total = 0 then 0
  else
    let supportRatio : ℚ := (supporting.length : ℚ) / (total : ℚ)
    let meanSup : ℚ :=
      if supporting.length = 0 then 0
      else (supporting.map (fun s => (calculateSourceQuality env tbl [s] : ℚ) / 100)).sum
        / (supporting.length : ℚ)
    let sumCon : ℚ :=
      (contradicting.map (fun s => (calculateSourceQuality env tbl [s] : ℚ) / 100)).sum
    jsRound (100 * clamp01 (3 / 5 * supportRatio + 2 / 5 * meanSup - 3 / 10 * sumCon))

/-! ### Unified pipeline orchestrator
(packages/core/src/modules/unified-pipeline.ts, `runPipeline`)

Each stage's primary work is an external call; a run is therefore determined
by the outcome (`Except`) of each stage's operation.  `safeExecute` turns an
exception into an `error` event plus a `null` result. -/

/-- `RouterPlan` from types.ts. -/
structure RouterPlan where
  useWeb : Bool
  topic : String
  steps : List String
  maxIterations : ℕ
deriving DecidableEq, Repr

/-- `Fact` from types.ts. -/
structure Fact where
  statement : String
  source : String
  evidence : Option String := none
  published : Option String := none
deriving DecidableEq, Repr

/-- The speed mode of `Settings`. -/
inductive SpeedMode where
  | fast | balanced | thorough
deriving DecidableEq, Repr

/-- Events delivered through `emit` at stage boundaries, across both pipeline
implementations (fact-check, critique, analysis, response and the credibility
trio carry abstract payloads; `status` carries the stage name). -/
inductive PipeEvent where
  | router (plan : RouterPlan)
  | sources (ss : List Source)
  | facts (fs : List Fact)
  | writer (chunk : String)
  | factcheck (report : String)
  | critique (feedback : String)
  | error (message : String) (detail : String)
  | tokens
  | done
  | status (stage : String)
  | analysis (a : String)
  | response (r : String)
  | crossValidation
  | uncertainty
  | credibility
  | performance
deriving DecidableEq, Repr

/-- The outcome of each stage's primary operation for one run (the writing
stage yields the chunks it streams). -/
structure StageOutcomes where
  router : Except String RouterPlan
  search : Except String (List Source)
  extractFacts : Except String (List Fact)
  analyze : Except String String
  write : Except String (List String)
  factCheck : Except String String
  critiqueRun : Except String String

/-- `UnifiedResearchPipeline.runPipeline`: the ordered event trace of one run,
as a function of the stage outcomes.  A router failure emits its diagnostic
and returns early (`if (!plan) return`); every later stage failure is turned
into an `error` event plus a safe default (`|| []`, `|| '分析失败…'`), and the
run still reaches the `tokens` and `done` events. -/
def runPipeline (speedMode : SpeedMode) (st : StageOutcomes) : List PipeEvent :=
  match st.router with
  | .error e => [.error "路由器规划失败" e]
  | .ok plan =>
      let searchEvents :=
        if plan.useWeb then
          match st.search with
          | .ok ss => if 0 < ss.length then [PipeEvent.sources ss] else []
          | .error e => [.error "网络搜索失败" e]
        else []
      let factsEvents :=
        match st.extractFacts with
        | .ok fs => if 0 < fs.length then [PipeEvent.facts fs] else []
        | .error e => [.error "事实提取失败" e]
      let analysisEvents :=
        match st.analyze with
        | .ok _ => []
        | .error e => [PipeEvent.error "分析失败" e]
      let writeEvents :=
        match st.write with
        | .ok chunks => chunks.map PipeEvent.writer
        | .error e => [.error "写作失败" e]
      let factCheckEvents :=
        if speedMode ≠ .fast then
          match st.factCheck with
          | .ok report => [PipeEvent.factcheck report]
          | .error e => [.error "事实查核失败" e]
        else []
      let critiqueEvents :=
        if speedMode = .thorough then
          match st.critiqueRun with
          | .ok feedback => [PipeEvent.critique feedback]
          | .error e => [.error "评论失败" e]
        else []
      [PipeEvent.router plan] ++ searchEvents ++ factsEvents ++ analysisEvents ++
        writeEvents ++ factCheckEvents ++ critiqueEvents ++ [.tokens, .done]

/-- The outcome of each stage's primary operation for one run of part_002's
`ResearchPipeline.runPipeline` (the writing stage yields the single response
string it emits; the credibility assessment's three payloads are abstract). -/
structure LegacyOutcomes where
  router : Except String RouterPlan
  search : Except String (List Source)
  extractFacts : Except String (List Fact)
  analyze : Except String String
  write : Except String String
  factCheck : Except String String
  critiqueRun : Except String String
  credibility : Except String Unit

/-- `ResearchPipeline.runPipeline` from part_002 (lines 70–171): only the
search, fact-extraction and credibility-assessment stages have a local
try/catch (diagnostic plus empty default, run continues); an exception in the
router, analysis, writing, fact-check or critique stage reaches the outer
catch, which emits the single run-level diagnostic and returns — nothing
after it executes. -/
def runResearchPipeline (st : LegacyOutcomes) : List PipeEvent :=
  [.status "router"] ++
  match st.router with
  | .error e => [.error "流程执行失败" e]
  | .ok plan =>
      [PipeEvent.router plan] ++
      (if plan.useWeb then
        [PipeEvent.status "search"] ++
        match st.search with
        | .ok ss => [PipeEvent.sources ss]
        | .error e => [.error "搜索失败" e]
      else []) ++
      ([PipeEvent.status "research"] ++
        match st.extractFacts with
        | .ok fs => [PipeEvent.facts fs]
        | .error e => [.error "事实提取失败" e, .facts []]) ++
      [.status "analysis"] ++
      match st.analyze with
      | .error e => [.error "流程执行失败" e]
      | .ok a =>
          [PipeEvent.analysis a, .status "writing"] ++
          match st.write with
          | .error e => [.error "流程执行失败" e]
          | .ok r =>
              [PipeEvent.response r, .status "factcheck"] ++
              match st.factCheck with
              | .error e => [.error "流程执行失败" e]
              | .ok report =>
                  [PipeEvent.factcheck report, .status "critique"] ++
                  match st.critiqueRun with
                  | .error e => [.error "流程执行失败" e]
                  | .ok feedback =>
                      [PipeEvent.critique feedback, .status "credibility"] ++
                      (match st.credibility with
                        | .ok _ => [PipeEvent.crossValidation,
                            PipeEvent.uncertainty, PipeEvent.credibility]
                        | .error e => [.error "可信度评估失败" e]) ++
                      [.tokens, .status "complete", .performance]

/-- JS falsiness of `process.env.X` (missing or empty). -/
def jsFalsy (v : Option String) : Bool := v.getD "" = ""

/-- The credential check at the top of part_003
(`if (!OPENAI_API_KEY) throw ...`): run before any stage starts. -/
def startupCheck (openaiKey tavilyKey : Option String) : Except String Unit :=
  if jsFalsy openaiKey then .error "Missing OPENAI_API_KEY"
  else if jsFalsy tavilyKey then .error "Missing TAVILY_API_KEY"
  else .ok ()

/-! ### Bounded-concurrency executor
(packages/core/src/modules/cache.ts, `ParallelProcessor`)

One logical flow mutates the processor between suspension points; the
externally visible behaviour is a trace of submissions and completions.  A
`wrappedTask` increments `running` when started, records its own outcome on
its handle, and in its `finally` block decrements `running` and drains the
queue — identically for fulfilled and rejected tasks. -/

/-- A submission or the completion of a started task. -/
inductive PEvent where
  | submit (id : ℕ)
  | complete (id : ℕ)

/-- The `ParallelProcessor` state: the concurrency bound, the `running`
counter, the ids of started-but-unfinished tasks, the FIFO queue of waiting
task ids, and the outcomes delivered to callers' handles. -/
structure ProcState where
  maxConcurrent : ℕ
  running : ℕ
  activeIds : List ℕ
  queue : List ℕ
  delivered : List (ℕ × Outcome String ℕ)

/-- Starting a wrapped task: `this.running++`. -/
def startTask (st : ProcState) (id : ℕ) : ProcState :=
  { st with running := st.running + 1, activeIds := st.activeIds ++ [id] }

/-- The `while` loop of `processQueue`, recursing on the queue contents
(the list argument always equals the state's queue). -/
def drainLoop : List ℕ → ProcState → ProcState
  | [], st => st
  | id :: rest, st =>
      if st.running < st.maxConcurrent then
        drainLoop rest (startTask { st with queue := rest } id)
      else st

/-- `processQueue`: start queued tasks in FIFO order while a slot is free. -/
def drainQueue (st : ProcState) : ProcState := drainLoop st.queue st

/-- One step of the processor: `add` starts the task if a slot is free and
queues it otherwise; a completion resolves or rejects the handle with the
task's own outcome, then runs the `finally` block (decrement and drain).  A
completion of a task that is not running is a no-op. -/
def pstep (tasks : ℕ → Outcome String ℕ) (st : ProcState) : PEvent → ProcState
  | .submit id =>
      if st.running < st.maxConcurrent then startTask st id
      else { st with queue := st.queue ++ [id] }
  | .complete id =>
      if st.activeIds.contains id then
        drainQueue { st with
          running := st.running - 1,
          activeIds := st.activeIds.erase id,
          delivered := st.delivered ++ [(id, tasks id)] }
      else st

/-- The processor state after a trace of events, from a fresh
`new ParallelProcessor(maxConcurrent)`. -/
def runTrace (tasks : ℕ → Outcome String ℕ) (maxConcurrent : ℕ)
    (evs : List PEvent) : ProcState :=
  evs.foldl (pstep tasks) ⟨maxConcurrent, 0, [], [], []⟩

/-! ### Invariants and concrete fixtures -/

/-- The per-domain bookkeeping invariant of `diversifySources`: `byDomain`
holds the exact number of picked sources of each domain, never above the
cap. -/
def DomInv (dom : String → String) (maxPerDomain : ℕ) (st : DivState) : Prop :=
  ∀ d, st.picked.countP (fun p => decide (dom p.2.url = d)) = domGet st.byDomain d ∧
    domGet st.byDomain d ≤ maxPerDomain

/-- Structural well-formedness of the diversifier state: every picked entry
comes from the pool, pool indices are picked at most once, and `enCount` counts
the picked English-like sources. -/
def WFdiv (sources : List Source) (st : DivState) : Prop :=
  (∀ p ∈ st.picked, p ∈ sources.enum) ∧
  (st.picked.map Prod.fst).Nodup ∧
  st.enCount = st.picked.countP (fun p => foreignSrc p.2)

/-- The executor's invariant: fixed bound, `running` equals the number of
started-but-unfinished tasks and never exceeds the bound, nobody waits while
a slot is free, and every delivered handle carries its own task's outcome. -/
def procInv (tasks : ℕ → Outcome String ℕ) (maxC : ℕ) (st : ProcState) : Prop :=
  st.maxConcurrent = maxC ∧
  st.running = st.activeIds.length ∧
  st.running ≤ maxC ∧
  (st.queue ≠ [] → st.running = maxC) ∧
  (∀ p ∈ st.delivered, p.2 = tasks p.1)

/-- A hostname function on the two fixture URLs (what `new URL(u).hostname`
returns on them). -/
def testDom : String → String := fun u =>
  if u = "http://x.com" then "x.com"
  else if u = "http://y.com" then "y.com"
  else ""

/-- A CJK-titled fixture source. -/
def cjkSrc : Source := { title := some "日", url := "http://x.com" }

/-- An English-like fixture source. -/
def engSrc : Source := { title := some "news", url := "http://y.com" }

/-- A platform environment in which no URL and no date parses (what JS does
on empty URLs and empty date strings). -/
def testEnv : CredEnv := { parseHost := fun _ => none, parseDate := fun _ => none, now := 0 }

/-- A source whose URL fails to parse, contributing the flat `0.3` quality. -/
def badSrc : Source := { url := "" }

/-! ## Theorems -/

/-- Claim C1: for every run of the stage scheduler, the timeout slice equals
`max(minMs, floor(remaining(D) * r))` with `remaining(none) = ∞`; consequently
with an unset deadline the scheduler returns the primary task's result and the
fallback task is never invoked. -/
theorem budget_slice_formula_and_unset_deadline {ε α : Type}
    (deadline : Option ℤ) (now : ℤ) (ratio : ℚ) (minMs : ℤ)
    (task fallback : TimedTask ε α) :
    (∀ d, deadline = some d →
      budgetSlice deadline now ratio minMs
        = some (max minMs ⌊((max 0 (d - now) : ℤ) : ℚ) * ratio⌋)) ∧
    (deadline = none →
      withBudget deadline now ratio minMs task fallback = ⟨task.outcome, false⟩) := by
  constructor
  · rintro d rfl
    simp [budgetSlice, msLeft]
  · rintro rfl
    simp [withBudget, budgetSlice, msLeft]

/-- Witness for C1 at a concrete deadline and at an unset deadline. -/
theorem budget_slice_formula_and_unset_deadline_witness :
    budgetSlice (some 1000) 0 (1 / 2) 100
      = some (max 100 ⌊((max 0 ((1000 : ℤ) - 0) : ℤ) : ℚ) * (1 / 2)⌋) ∧
    withBudget none 0 (1 / 2) 100
        (⟨5, Outcome.ok 1⟩ : TimedTask String ℕ) ⟨7, Outcome.ok 2⟩
      = ⟨Outcome.ok 1, false⟩ :=
  ⟨(budget_slice_formula_and_unset_deadline (some 1000) 0 (1 / 2) 100
      (⟨5, Outcome.ok 1⟩ : TimedTask String ℕ) ⟨7, Outcome.ok 2⟩).1 1000 rfl,
   (budget_slice_formula_and_unset_deadline none 0 (1 / 2) 100
      (⟨5, Outcome.ok 1⟩ : TimedTask String ℕ) ⟨7, Outcome.ok 2⟩).2 rfl⟩

/-- Claim C2: a primary task that settles (in particular, fails) strictly
before the slice timer fires wins the race, so its failure propagates and is
not replaced by the fallback; the fallback's result is returned only when the
primary is still unresolved when the slice expires (it settles only after the
slice has elapsed and the fallback has finished). -/
theorem primary_failure_beats_fallback {ε α : Type} (d now : ℤ) (ratio : ℚ)
    (minMs : ℤ) (task fallback : TimedTask ε α) (slice : ℤ)
    (hs : budgetSlice (some d) now ratio minMs = some slice) :
    ((task.time : ℤ) < slice →
      (withBudget (some d) now ratio minMs task fallback).result = task.outcome) ∧
    (slice + (fallback.time : ℤ) < (task.time : ℤ) →
      (withBudget (some d) now ratio minMs task fallback).result = fallback.outcome) := by
  have hw : withBudget (some d) now ratio minMs task fallback
      = if (task.time : ℤ) ≤ slice + (fallback.time : ℤ) then ⟨task.outcome, true⟩
        else ⟨fallback.outcome, true⟩ := by
    unfold withBudget
    rw [hs]
  constructor
  · intro h
    rw [hw, if_pos (by omega)]
  · intro h
    rw [hw, if_neg (by omega)]

/-- Witness for C2: with a 500 ms slice, a primary settling at 10 ms wins and
a primary settling at 600 ms loses to a 50 ms fallback started at 500 ms. -/
theorem primary_failure_beats_fallback_witness :
    (withBudget (some 1000) 0 (1 / 2) 100
        (⟨10, Outcome.err "boom"⟩ : TimedTask String ℕ) ⟨50, Outcome.ok 2⟩).result
      = Outcome.err "boom" ∧
    (withBudget (some 1000) 0 (1 / 2) 100
        (⟨600, Outcome.err "slow"⟩ : TimedTask String ℕ) ⟨50, Outcome.ok 2⟩).result
      = Outcome.ok 2 := by
  have hs : budgetSlice (some 1000) 0 (1 / 2) 100 = some 500 := by
    unfold budgetSlice msLeft
    norm_num
  exact ⟨(primary_failure_beats_fallback 1000 0 (1 / 2) 100
      (⟨10, Outcome.err "boom"⟩ : TimedTask String ℕ) ⟨50, Outcome.ok 2⟩ 500 hs).1
      (by norm_num),
    (primary_failure_beats_fallback 1000 0 (1 / 2) 100
      (⟨600, Outcome.err "slow"⟩ : TimedTask String ℕ) ⟨50, Outcome.ok 2⟩ 500 hs).2
      (by norm_num)⟩

/-- Looking up the key just written by `Map.set` yields the written item. -/
theorem mapGet_mapSet_self {V : Type} (m : List (String × CacheItem V))
    (k : String) (it : CacheItem V) : mapGet (mapSet m k it) k = some it := by
  induction m with
  | nil => simp [mapSet, mapGet]
  | cons e rest ih =>
      obtain ⟨k', it'⟩ := e
      by_cases h : k' = k <;> simp [mapSet, mapGet, h, ih]

/-- Claim C5: for a non-empty claim key, `set` followed by `get` within `ttl`
milliseconds returns the stored payload, and strictly after `ttl` it misses. -/
theorem cache_roundtrip_ttl {V : Type} (c : VCache V) (fact : String)
    (sources : List Source) (v : V) (t₁ t₂ : ℤ) (hfact : fact ≠ "") :
    (t₂ - t₁ ≤ c.ttl →
      (cacheGet (cacheSet c fact sources v t₁) fact sources t₂).1 = some v) ∧
    (c.ttl < t₂ - t₁ →
      (cacheGet (cacheSet c fact sources v t₁) fact sources t₂).1 = none) := by
  have hset : (cacheSet c fact sources v t₁).entries
      = mapSet (if c.maxSize ≤ c.entries.length then
          match c.entries.head? with
          | some (k0, _) => if k0 = "" then c.entries else mapDelete c.entries k0
          | none => c.entries
        else c.entries) (generateKey fact sources) ⟨v, t₁⟩ := by
    simp [cacheSet, hfact]
  have httl : (cacheSet c fact sources v t₁).ttl = c.ttl := by
    simp [cacheSet, hfact]
  constructor
  · intro h
    have hcond : ¬ (c.ttl < t₂ - t₁) := by omega
    simp only [cacheGet, if_neg hfact, hset, httl, mapGet_mapSet_self, hcond,
      if_false, ite_false]
  · intro h
    have hcond : c.ttl < t₂ - t₁ := by omega
    simp only [cacheGet, if_neg hfact, hset, httl, mapGet_mapSet_self, hcond,
      if_true, ite_true]

/-- Witness for C5: a round trip exactly at the TTL boundary hits, one
millisecond later it misses. -/
theorem cache_roundtrip_ttl_witness :
    (cacheGet (cacheSet (⟨10, 100, []⟩ : VCache ℕ) "k" [] 5 0) "k" [] 100).1 = some 5 ∧
    (cacheGet (cacheSet (⟨10, 100, []⟩ : VCache ℕ) "k" [] 5 0) "k" [] 101).1 = none :=
  ⟨(cache_roundtrip_ttl (⟨10, 100, []⟩ : VCache ℕ) "k" [] 5 0 100 (by decide)).1
      (by decide),
   (cache_roundtrip_ttl (⟨10, 100, []⟩ : VCache ℕ) "k" [] 5 0 101 (by decide)).2
      (by decide)⟩

/-- Claim C10: with the empty claim key the cache is a no-op at its public
interface — `get` misses without touching the state and `set` leaves the
state unchanged, regardless of the sources argument or prior contents. -/
theorem empty_claim_cache_noop {V : Type} (c : VCache V) (sources : List Source)
    (v : V) (now : ℤ) :
    cacheGet c "" sources now = (none, c) ∧ cacheSet c "" sources v now = c := by
  constructor <;> simp [cacheGet, cacheSet]

/-- Counterexample to claim C3: a Plan (router) stage failure is not degraded
into a safe default — the run emits the router diagnostic and stops, so no
downstream stage executes and the `done` event is never emitted. -/
theorem router_failure_aborts_run :
    runPipeline SpeedMode.fast
        { router := .error "boom", search := .ok [], extractFacts := .ok [],
          analyze := .ok "a", write := .ok [], factCheck := .ok "r",
          critiqueRun := .ok "c" }
      = [.error "路由器规划失败" "boom"] ∧
    PipeEvent.done ∉ runPipeline SpeedMode.fast
        { router := .error "boom", search := .ok [], extractFacts := .ok [],
          analyze := .ok "a", write := .ok [], factCheck := .ok "r",
          critiqueRun := .ok "c" } := by
  constructor
  · rfl
  · decide

/-- Membership in a two-branch list `if`. -/
theorem mem_ite_list {α : Type} (c : Prop) [Decidable c] (x : α)
    (l₁ l₂ : List α) :
    (x ∈ if c then l₁ else l₂) ↔ ((c ∧ x ∈ l₁) ∨ (¬ c ∧ x ∈ l₂)) := by
  split_ifs with h <;> simp [h]

/-- `Option.or` keeps an existing value. -/
theorem option_some_or {α : Type} (a : α) (o : Option α) :
    (some a).or o = some a := rfl

/-- Claim C3 as amended.  In `UnifiedResearchPipeline.runPipeline`, every
stage failure after a successful Plan stage is recovered locally — the
stage's diagnostic `error` event is emitted and the safe default substituted
(observably, no `sources`/`facts` event is emitted for a failed search or
extraction) — and the run still ends with the `done` event; a Plan (router)
failure emits its diagnostic and aborts the remainder.  In part_002's
`ResearchPipeline.runPipeline`, only the search, fact-extraction and
credibility-assessment stages are recovered locally (diagnostic emitted, and
an empty `facts` default re-emitted on extraction failure), the run then
completing through the `performance` event when the unguarded stages succeed;
a failure in the router, analysis, writing, fact-check or critique stage
reaches the outer catch, which emits the run-level diagnostic as the last
event and never reaches completion.  A missing required credential fails the
startup check before any stage starts. -/
theorem pipeline_failure_policy (speedMode : SpeedMode) (st : StageOutcomes)
    (lst : LegacyOutcomes) :
    (∀ plan, st.router = .ok plan →
      (runPipeline speedMode st).getLast? = some .done ∧
      (∀ e, plan.useWeb = true → st.search = .error e →
        PipeEvent.error "网络搜索失败" e ∈ runPipeline speedMode st ∧
        ∀ ss, PipeEvent.sources ss ∉ runPipeline speedMode st) ∧
      (∀ e, st.extractFacts = .error e →
        PipeEvent.error "事实提取失败" e ∈ runPipeline speedMode st ∧
        ∀ fs, PipeEvent.facts fs ∉ runPipeline speedMode st) ∧
      (∀ e, st.analyze = .error e →
        PipeEvent.error "分析失败" e ∈ runPipeline speedMode st) ∧
      (∀ e, st.write = .error e →
        PipeEvent.error "写作失败" e ∈ runPipeline speedMode st) ∧
      (∀ e, speedMode ≠ .fast → st.factCheck = .error e →
        PipeEvent.error "事实查核失败" e ∈ runPipeline speedMode st) ∧
      (∀ e, speedMode = .thorough → st.critiqueRun = .error e →
        PipeEvent.error "评论失败" e ∈ runPipeline speedMode st)) ∧
    (∀ e, st.router = .error e →
      runPipeline speedMode st = [.error "路由器规划失败" e]) ∧
    (∀ plan a r f c, lst.router = .ok plan → lst.analyze = .ok a →
      lst.write = .ok r → lst.factCheck = .ok f → lst.critiqueRun = .ok c →
      (runResearchPipeline lst).getLast? = some .performance ∧
      (∀ e, plan.useWeb = true → lst.search = .error e →
        PipeEvent.error "搜索失败" e ∈ runResearchPipeline lst) ∧
      (∀ e, lst.extractFacts = .error e →
        PipeEvent.error "事实提取失败" e ∈ runResearchPipeline lst ∧
        PipeEvent.facts [] ∈ runResearchPipeline lst) ∧
      (∀ e, lst.credibility = .error e →
        PipeEvent.error "可信度评估失败" e ∈ runResearchPipeline lst)) ∧
    (∀ e, lst.router = .error e →
      runResearchPipeline lst = [.status "router", .error "流程执行失败" e]) ∧
    (∀ plan e, lst.router = .ok plan → lst.analyze = .error e →
      (runResearchPipeline lst).getLast? = some (.error "流程执行失败" e) ∧
      PipeEvent.performance ∉ runResearchPipeline lst) ∧
    (∀ plan a e, lst.router = .ok plan → lst.analyze = .ok a →
      lst.write = .error e →
      (runResearchPipeline lst).getLast? = some (.error "流程执行失败" e) ∧
      PipeEvent.performance ∉ runResearchPipeline lst) ∧
    (∀ plan a r e, lst.router = .ok plan → lst.analyze = .ok a →
      lst.write = .ok r → lst.factCheck = .error e →
      (runResearchPipeline lst).getLast? = some (.error "流程执行失败" e) ∧
      PipeEvent.performance ∉ runResearchPipeline lst) ∧
    (∀ plan a r f e, lst.router = .ok plan → lst.analyze = .ok a →
      lst.write = .ok r → lst.factCheck = .ok f → lst.critiqueRun = .error e →
      (runResearchPipeline lst).getLast? = some (.error "流程执行失败" e) ∧
      PipeEvent.performance ∉ runResearchPipeline lst) ∧
    (∀ o t, startupCheck o t ≠ .ok () ↔ (jsFalsy o = true ∨ jsFalsy t = true)) := by
  refine ⟨?_, ?_, ?_, ?_, ?_, ?_, ?_, ?_, ?_⟩
  · intro plan hplan
    refine ⟨?_, ?_, ?_, ?_, ?_, ?_, ?_⟩
    · simp only [runPipeline, hplan, List.getLast?_append, List.getLast?_cons_cons, List.getLast?_singleton, option_some_or]
    · intro e huw hse
      constructor
      · simp [runPipeline, hplan, huw, hse]
      · intro ss
        rcases hf : st.extractFacts with fs | e₂ <;>
          rcases ha : st.analyze with a | e₃ <;>
          rcases hw : st.write with ch | e₄ <;>
          rcases hfc : st.factCheck with rep | e₅ <;>
          rcases hcq : st.critiqueRun with cq | e₆ <;>
          simp [runPipeline, hplan, huw, hse, hf, ha, hw, hfc, hcq, mem_ite_list]
    · intro e hfe
      constructor
      · simp [runPipeline, hplan, hfe, mem_ite_list]
      · intro fs
        rcases hs : st.search with ss | e₂ <;>
          rcases ha : st.analyze with a | e₃ <;>
          rcases hw : st.write with ch | e₄ <;>
          rcases hfc : st.factCheck with rep | e₅ <;>
          rcases hcq : st.critiqueRun with cq | e₆ <;>
          simp [runPipeline, hplan, hs, hfe, ha, hw, hfc, hcq, mem_ite_list]
    · intro e hae
      simp [runPipeline, hplan, hae, mem_ite_list]
    · intro e hwe
      simp [runPipeline, hplan, hwe, mem_ite_list]
    · intro e hsm hfce
      simp [runPipeline, hplan, hfce, hsm, mem_ite_list]
    · intro e hsm hcqe
      simp [runPipeline, hplan, hcqe, hsm, mem_ite_list]
  · intro e herr
    rw [runPipeline, herr]
  · intro plan a r f c hr ha hw hf hc
    refine ⟨?_, ?_, ?_, ?_⟩
    · simp only [runResearchPipeline, hr, ha, hw, hf, hc, List.getLast?_append, List.getLast?_cons_cons, List.getLast?_singleton, option_some_or]
    · intro e huw hse
      simp [runResearchPipeline, hr, ha, hw, hf, hc, huw, hse, mem_ite_list]
    · intro e hfe
      constructor <;>
        simp [runResearchPipeline, hr, ha, hw, hf, hc, hfe, mem_ite_list]
    · intro e hce
      simp [runResearchPipeline, hr, ha, hw, hf, hc, hce, mem_ite_list]
  · intro e herr
    rw [runResearchPipeline, herr]
    rfl
  · intro plan e hr hae
    constructor
    · simp only [runResearchPipeline, hr, hae, List.getLast?_append, List.getLast?_cons_cons, List.getLast?_singleton, option_some_or]
    · rcases hs : lst.search with ss | e₂ <;>
        rcases hf : lst.extractFacts with fs | e₃ <;>
        simp [runResearchPipeline, hr, hae, hs, hf, mem_ite_list]
  · intro plan a e hr ha hwe
    constructor
    · simp only [runResearchPipeline, hr, ha, hwe, List.getLast?_append, List.getLast?_cons_cons, List.getLast?_singleton, option_some_or]
    · rcases hs : lst.search with ss | e₂ <;>
        rcases hf : lst.extractFacts with fs | e₃ <;>
        simp [runResearchPipeline, hr, ha, hwe, hs, hf, mem_ite_list]
  · intro plan a r e hr ha hw hfe
    constructor
    · simp only [runResearchPipeline, hr, ha, hw, hfe, List.getLast?_append, List.getLast?_cons_cons, List.getLast?_singleton, option_some_or]
    · rcases hs : lst.search with ss | e₂ <;>
        rcases hf : lst.extractFacts with fs | e₃ <;>
        simp [runResearchPipeline, hr, ha, hw, hfe, hs, hf, mem_ite_list]
  · intro plan a r f e hr ha hw hf hce
    constructor
    · simp only [runResearchPipeline, hr, ha, hw, hf, hce, List.getLast?_append, List.getLast?_cons_cons, List.getLast?_singleton, option_some_or]
    · rcases hs : lst.search with ss | e₂ <;>
        rcases hfx : lst.extractFacts with fs | e₃ <;>
        simp [runResearchPipeline, hr, ha, hw, hf, hce, hs, hfx, mem_ite_list]
  · intro o t
    unfold startupCheck
    by_cases h₁ : jsFalsy o <;> by_cases h₂ : jsFalsy t <;> simp [h₁, h₂]

/-- Witness for C3's amended claim: the unified pipeline with every post-Plan
stage failing emits each stage's diagnostic, emits no sources event, and still
ends in `done`; part_002's pipeline completes through `performance` when only
its guarded stages fail (re-emitting the empty facts default), but an
analysis-stage failure there ends the trace at the run-level diagnostic; a
missing key fails the startup check. -/
theorem pipeline_failure_policy_witness :
    ((runPipeline SpeedMode.thorough
        { router := .ok ⟨true, "general", [], 1⟩, search := .error "s",
          extractFacts := .error "f", analyze := .error "a", write := .error "w",
          factCheck := .error "fc", critiqueRun := .error "cr" }).getLast?
      = some .done ∧
     PipeEvent.error "网络搜索失败" "s" ∈ runPipeline SpeedMode.thorough
        { router := .ok ⟨true, "general", [], 1⟩, search := .error "s",
          extractFacts := .error "f", analyze := .error "a", write := .error "w",
          factCheck := .error "fc", critiqueRun := .error "cr" } ∧
     PipeEvent.sources [] ∉ runPipeline SpeedMode.thorough
        { router := .ok ⟨true, "general", [], 1⟩, search := .error "s",
          extractFacts := .error "f", analyze := .error "a", write := .error "w",
          factCheck := .error "fc", critiqueRun := .error "cr" } ∧
     PipeEvent.error "评论失败" "cr" ∈ runPipeline SpeedMode.thorough
        { router := .ok ⟨true, "general", [], 1⟩, search := .error "s",
          extractFacts := .error "f", analyze := .error "a", write := .error "w",
          factCheck := .error "fc", critiqueRun := .error "cr" }) ∧
    ((runResearchPipeline
        { router := .ok ⟨true, "general", [], 1⟩, search := .error "s",
          extractFacts := .error "f", analyze := .ok "a", write := .ok "r",
          factCheck := .ok "fc", critiqueRun := .ok "cq",
          credibility := .error "cred" }).getLast? = some .performance ∧
     PipeEvent.facts [] ∈ runResearchPipeline
        { router := .ok ⟨true, "general", [], 1⟩, search := .error "s",
          extractFacts := .error "f", analyze := .ok "a", write := .ok "r",
          factCheck := .ok "fc", critiqueRun := .ok "cq",
          credibility := .error "cred" }) ∧
    ((runResearchPipeline
        { router := .ok ⟨true, "general", [], 1⟩, search := .ok [],
          extractFacts := .ok [], analyze := .error "boom", write := .ok "r",
          factCheck := .ok "fc", critiqueRun := .ok "cq",
          credibility := .ok () }).getLast?
        = some (.error "流程执行失败" "boom") ∧
     PipeEvent.performance ∉ runResearchPipeline
        { router := .ok ⟨true, "general", [], 1⟩, search := .ok [],
          extractFacts := .ok [], analyze := .error "boom", write := .ok "r",
          factCheck := .ok "fc", critiqueRun := .ok "cq",
          credibility := .ok () }) ∧
    (startupCheck none (some "tk") ≠ .ok () ↔
      (jsFalsy none = true ∨ jsFalsy (some "tk") = true)) := by
  have hU := (pipeline_failure_policy SpeedMode.thorough
      { router := .ok ⟨true, "general", [], 1⟩, search := .error "s",
        extractFacts := .error "f", analyze := .error "a", write := .error "w",
        factCheck := .error "fc", critiqueRun := .error "cr" }
      { router := .ok ⟨true, "general", [], 1⟩, search := .error "s",
        extractFacts := .error "f", analyze := .ok "a", write := .ok "r",
        factCheck := .ok "fc", critiqueRun := .ok "cq",
        credibility := .error "cred" }).1 ⟨true, "general", [], 1⟩ rfl
  have hL := (pipeline_failure_policy SpeedMode.fast
      { router := .ok ⟨true, "general", [], 1⟩, search := .error "s",
        extractFacts := .error "f", analyze := .error "a", write := .error "w",
        factCheck := .error "fc", critiqueRun := .error "cr" }
      { router := .ok ⟨true, "general", [], 1⟩, search := .error "s",
        extractFacts := .error "f", analyze := .ok "a", write := .ok "r",
        factCheck := .ok "fc", critiqueRun := .ok "cq",
        credibility := .error "cred" }).2.2.1
      ⟨true, "general", [], 1⟩ "a" "r" "fc" "cq" rfl rfl rfl rfl rfl
  have hA := (pipeline_failure_policy SpeedMode.fast
      { router := .ok ⟨true, "general", [], 1⟩, search := .error "s",
        extractFacts := .error "f", analyze := .error "a", write := .error "w",
        factCheck := .error "fc", critiqueRun := .error "cr" }
      { router := .ok ⟨true, "general", [], 1⟩, search := .ok [],
        extractFacts := .ok [], analyze := .error "boom", write := .ok "r",
        factCheck := .ok "fc", critiqueRun := .ok "cq",
        credibility := .ok () }).2.2.2.2.1 ⟨true, "general", [], 1⟩ "boom" rfl rfl
  have hS := (pipeline_failure_policy SpeedMode.fast
      { router := .ok ⟨true, "general", [], 1⟩, search := .error "s",
        extractFacts := .error "f", analyze := .error "a", write := .error "w",
        factCheck := .error "fc", critiqueRun := .error "cr" }
      { router := .ok ⟨true, "general", [], 1⟩, search := .ok [],
        extractFacts := .ok [], analyze := .error "boom", write := .ok "r",
        factCheck := .ok "fc", critiqueRun := .ok "cq",
        credibility := .ok () }).2.2.2.2.2.2.2.2 none (some "tk")
  exact ⟨⟨hU.1, (hU.2.1 "s" rfl rfl).1, (hU.2.1 "s" rfl rfl).2 [],
      hU.2.2.2.2.2.2 "cr" rfl rfl⟩,
    ⟨hL.1, (hL.2.2.1 "f" rfl).2⟩, hA, hS⟩

/-- Draining the queue restores the full executor invariant from the partial
one that holds right after a completion freed a slot. -/
theorem drainLoop_inv (tasks : ℕ → Outcome String ℕ) (maxC : ℕ) :
    ∀ (q : List ℕ) (st : ProcState), st.queue = q → st.maxConcurrent = maxC →
    st.running = st.activeIds.length → st.running ≤ maxC →
    (∀ p ∈ st.delivered, p.2 = tasks p.1) →
    procInv tasks maxC (drainLoop q st) := by
  intro q
  induction q with
  | nil =>
      intro st hq h1 h2 h3 h4
      exact ⟨h1, h2, h3, fun hne => absurd hq hne, h4⟩
  | cons id rest ih =>
      intro st hq h1 h2 h3 h4
      simp only [drainLoop]
      by_cases hr : st.running < st.maxConcurrent
      · rw [if_pos hr]
        apply ih
        · simp [startTask]
        · simp [startTask, h1]
        · simp [startTask, h2]
        · simp only [startTask]
          omega
        · simpa [startTask] using h4
      · rw [if_neg hr]
        refine ⟨h1, h2, h3, fun _ => by omega, h4⟩

/-- Every single executor step (submission or completion, fulfilled or
rejected alike) preserves the executor invariant. -/
theorem pstep_inv (tasks : ℕ → Outcome String ℕ) (maxC : ℕ) (st : ProcState)
    (ev : PEvent) (h : procInv tasks maxC st) :
    procInv tasks maxC (pstep tasks st ev) := by
  obtain ⟨hm, hlen, hle, hqf, hdel⟩ := h
  cases ev with
  | submit id =>
      simp only [pstep]
      by_cases hr : st.running < st.maxConcurrent
      · rw [if_pos hr]
        refine ⟨hm, by simp [startTask, hlen], by simp only [startTask]; omega,
          ?_, by simpa [startTask] using hdel⟩
        intro hne
        have hq := hqf (by simpa [startTask] using hne)
        omega
      · rw [if_neg hr]
        refine ⟨hm, hlen, hle, fun _ => ?_, hdel⟩
        show st.running = maxC
        omega
  | complete id =>
      simp only [pstep]
      by_cases hc : st.activeIds.contains id
      · rw [if_pos hc]
        have hmem : id ∈ st.activeIds := by simpa using hc
        apply drainLoop_inv tasks maxC _ _ rfl
        · exact hm
        · simp only [List.length_erase_of_mem hmem]
          omega
        · simp only []
          omega
        · intro p hp
          simp only [List.mem_append, List.mem_singleton] at hp
          rcases hp with hp | hp
          · exact hdel p hp
          · rw [hp]
      · rw [if_neg hc]
        exact ⟨hm, hlen, hle, hqf, hdel⟩

/-- The executor invariant holds after any event trace from a fresh
processor. -/
theorem runTrace_inv (tasks : ℕ → Outcome String ℕ) (maxC : ℕ)
    (evs : List PEvent) : procInv tasks maxC (runTrace tasks maxC evs) := by
  suffices h : ∀ (l : List PEvent) (st : ProcState), procInv tasks maxC st →
      procInv tasks maxC (l.foldl (pstep tasks) st) by
    exact h evs _ ⟨rfl, rfl, Nat.zero_le _, fun hne => absurd rfl hne, by simp⟩
  intro l
  induction l with
  | nil => intro st hst; exact hst
  | cons ev rest ih => intro st hst; exact ih _ (pstep_inv tasks maxC st ev hst)

/-- Claim C9: along every submission/completion trace of the
bounded-concurrency executor, at most `maxConcurrent` tasks run
simultaneously (`running` equals the number of started-but-unfinished tasks),
no task waits in the queue while a slot is free (the queue is re-drained
after every completion, rejected tasks included, since the slot release is in
the `finally` block), and every caller's handle receives its own task's
outcome — a rejection propagates the original error. -/
theorem parallel_processor_slots_and_errors (tasks : ℕ → Outcome String ℕ)
    (maxC : ℕ) (evs : List PEvent) :
    (runTrace tasks maxC evs).running ≤ maxC ∧
    (runTrace tasks maxC evs).running = (runTrace tasks maxC evs).activeIds.length ∧
    ((runTrace tasks maxC evs).queue ≠ [] → (runTrace tasks maxC evs).running = maxC) ∧
    (∀ id out, (id, out) ∈ (runTrace tasks maxC evs).delivered → out = tasks id) := by
  obtain ⟨hm, hlen, hle, hqf, hdel⟩ := runTrace_inv tasks maxC evs
  exact ⟨hle, hlen, hqf, fun id out hmem => hdel (id, out) hmem⟩

/-- Witness for C9: two tasks through a single slot, the first rejecting; the
slot is released, the queued task runs, both handles get their own outcomes. -/
theorem parallel_processor_slots_and_errors_witness :
    (runTrace (fun i => if i = 0 then .err "E" else .ok 7) 1
        [.submit 0, .submit 1, .complete 0, .complete 1]).running ≤ 1 ∧
    Outcome.err "E" = (fun i => if i = 0 then Outcome.err "E" else Outcome.ok 7) 0 :=
  ⟨(parallel_processor_slots_and_errors
      (fun i => if i = 0 then .err "E" else .ok 7) 1
      [.submit 0, .submit 1, .complete 0, .complete 1]).1,
   (parallel_processor_slots_and_errors
      (fun i => if i = 0 then .err "E" else .ok 7) 1
      [.submit 0, .submit 1, .complete 0, .complete 1]).2.2.2 0 (.err "E")
      (by decide)⟩

/-- Counterexample to claim C8: with one supporting and two contradicting
sources of quality `0.3` each (unparseable URLs), the code reports
`round(100*clamp01(0.6*(1/3) + 0.4*0.3 - 0.3*(0.3+0.3))) = 14`, while the
spec formula with the contradicting **mean** gives
`round(100*clamp01(0.6*(1/3) + 0.4*0.3 - 0.3*0.3)) = 23`. -/
theorem confidence_penalty_counterexample :
    calculateConfidence testEnv [] [badSrc] [badSrc, badSrc] = 14 ∧
    specConfidence testEnv [] [badSrc] [badSrc, badSrc] = 23 ∧
    calculateConfidence testEnv [] [badSrc] [badSrc, badSrc]
      ≠ specConfidence testEnv [] [badSrc] [badSrc, badSrc] := by
  refine ⟨?_, ?_, ?_⟩
  · norm_num [calculateConfidence, calculateSourceQuality, sourceScore1, testEnv,
      badSrc, jsRound, clamp01]
  · norm_num [specConfidence, calculateSourceQuality, sourceScore1, testEnv,
      badSrc, jsRound, clamp01]
  · norm_num [calculateConfidence, specConfidence, calculateSourceQuality,
      sourceScore1, testEnv, badSrc, jsRound, clamp01]

/-- Claim C8 as amended: the reported confidence equals
`round(100 * clamp01(0.6*supportRatio + 0.4*meanSourceQuality(supporting)
- 0.3*sumSourceQuality(contradicting)))` — the contradiction term is `0.3`
times the **sum** (not the mean) of the contradicting sources' qualities
scaled to `[0,1]`. -/
theorem sum_map_mul_const {α : Type} (f : α → ℚ) (c : ℚ) (l : List α) :
    (l.map (fun x => f x * c)).sum = c * (l.map f).sum := by
  induction l with
  | nil => simp
  | cons x xs ih =>
      simp only [List.map_cons, List.sum_cons, ih]
      ring

theorem jsRound_clamp_congr (a b : ℚ) (hab : a = b) :
    jsRound (clamp01 a * 100) = jsRound (100 * clamp01 b) := by
  rw [hab, mul_comm]

theorem confidence_matches_amended_formula (env : CredEnv)
    (tbl : List (String × ℚ)) (supporting contradicting : List Source) :
    calculateConfidence env tbl supporting contradicting
      = specConfidenceAmended env tbl supporting contradicting := by
  unfold calculateConfidence specConfidenceAmended
  by_cases h : supporting.length + contradicting.length = 0
  · simp [h]
  · simp only [h, if_false, ite_false]
    rw [sum_map_mul_const (fun s => (calculateSourceQuality env tbl [s] : ℚ) / 100)
      (3 / 10) contradicting]
    apply jsRound_clamp_congr
    split_ifs with h1 h2
    · exfalso
      omega
    · ring
    · ring
    · exfalso
      omega

/-- Counterexample to claim C4: the composite key is NOT injective — the pipe
separator also occurs freely in claim texts, so the pair
`("a", {b, c})` and the pair `("a|b", {c})` (different claim, different URL
set) produce the same key `"a|b|c"`. -/
theorem generateKey_collision :
    generateKey "a" [{ url := "b" }, { url := "c" }]
      = generateKey "a|b" [{ url := "c" }] ∧
    ("a" : String) ≠ "a|b" ∧
    (([{ url := "b" }, { url := "c" }] : List Source).map (fun s => s.url)).toFinset
      ≠ (([{ url := "c" }] : List Source).map (fun s => s.url)).toFinset := by
  refine ⟨by decide, by decide, ?_⟩
  intro h
  have hb : ("b" : String) ∈ (([{ url := "c" }] : List Source).map
      (fun s => s.url)).toFinset := by
    rw [← h]
    decide
  revert hb
  decide

/-- Splitting a character list at a pipe that occurs in neither prefix is
unambiguous. -/
theorem pipe_split : ∀ (a c b d : List Char), '|' ∉ a → '|' ∉ c →
    a ++ '|' :: b = c ++ '|' :: d → a = c ∧ b = d := by
  intro a
  induction a with
  | nil =>
      intro c b d _ hc h
      cases c with
      | nil =>
          simp only [List.nil_append, List.cons.injEq] at h
          exact ⟨rfl, h.2⟩
      | cons y ys =>
          simp only [List.nil_append, List.cons_append, List.cons.injEq] at h
          rw [← h.1] at hc
          exact absurd (List.mem_cons_self _ _) hc
  | cons x xs ih =>
      intro c b d ha hc h
      cases c with
      | nil =>
          simp only [List.cons_append, List.nil_append, List.cons.injEq] at h
          rw [h.1] at ha
          exact absurd (List.mem_cons_self _ _) ha
      | cons y ys =>
          simp only [List.cons_append, List.cons.injEq] at h
          obtain ⟨rfl, h2⟩ := h
          have hr := ih ys b d (fun hm => ha (List.mem_cons_of_mem _ hm))
            (fun hm => hc (List.mem_cons_of_mem _ hm)) h2
          exact ⟨by rw [hr.1], hr.2⟩

/-- The character data of a two-or-more-element pipe join. -/
theorem joinPipe_data_cons_cons (u v : String) (rest : List String) :
    (joinPipe (u :: v :: rest)).data
      = u.data ++ '|' :: (joinPipe (v :: rest)).data := by
  show (u ++ "|" ++ joinPipe (v :: rest)).data = _
  rw [String.data_append, String.data_append]
  simp

/-- A pipe join of a list headed by a non-empty string is non-empty. -/
theorem joinPipe_data_ne_nil (v : String) (vs : List String) (hv : v ≠ "") :
    (joinPipe (v :: vs)).data ≠ [] := by
  cases vs with
  | nil =>
      show v.data ≠ []
      intro h
      exact hv (String.ext h)
  | cons w ws =>
      rw [joinPipe_data_cons_cons]
      simp

/-- A pipe join is injective on lists of pipe-free non-empty strings. -/
theorem joinPipe_inj : ∀ (us vs : List String),
    (∀ u ∈ us, '|' ∉ u.data ∧ u ≠ "") → (∀ v ∈ vs, '|' ∉ v.data ∧ v ≠ "") →
    joinPipe us = joinPipe vs → us = vs := by
  intro us
  induction us with
  | nil =>
      intro vs _ hvs h
      cases vs with
      | nil => rfl
      | cons v ws =>
          exfalso
          apply joinPipe_data_ne_nil v ws (hvs v (List.mem_cons_self _ _)).2
          rw [← h]
          rfl
  | cons u us' ih =>
      intro vs hus hvs h
      cases vs with
      | nil =>
          exfalso
          apply joinPipe_data_ne_nil u us' (hus u (List.mem_cons_self _ _)).2
          rw [h]
          rfl
      | cons v vs' =>
          cases us' with
          | nil =>
              cases vs' with
              | nil =>
                  rw [show joinPipe [u] = u from rfl,
                    show joinPipe [v] = v from rfl] at h
                  rw [h]
              | cons w ws =>
                  exfalso
                  have hd : u.data = v.data ++ '|' :: (joinPipe (w :: ws)).data := by
                    rw [show joinPipe [u] = u from rfl] at h
                    rw [h]
                    exact joinPipe_data_cons_cons v w ws
                  exact (hus u (List.mem_cons_self _ _)).1
                    (by rw [hd]
                        exact List.mem_append_right _ (List.mem_cons_self _ _))
          | cons u2 us2 =>
              cases vs' with
              | nil =>
                  exfalso
                  have hd : v.data = u.data ++ '|' :: (joinPipe (u2 :: us2)).data := by
                    rw [show joinPipe [v] = v from rfl] at h
                    rw [← h, joinPipe_data_cons_cons]
                  exact (hvs v (List.mem_cons_self _ _)).1
                    (by rw [hd]
                        exact List.mem_append_right _ (List.mem_cons_self _ _))
              | cons v2 vs2 =>
                  have hd : u.data ++ '|' :: (joinPipe (u2 :: us2)).data
                      = v.data ++ '|' :: (joinPipe (v2 :: vs2)).data := by
                    rw [← joinPipe_data_cons_cons, ← joinPipe_data_cons_cons, h]
                  obtain ⟨h1, h2⟩ := pipe_split _ _ _ _
                    (hus u (List.mem_cons_self _ _)).1
                    (hvs v (List.mem_cons_self _ _)).1 hd
                  have hu : u = v := String.ext h1
                  have htail : (u2 :: us2) = (v2 :: vs2) :=
                    ih (v2 :: vs2)
                      (fun x hx => hus x (List.mem_cons_of_mem _ hx))
                      (fun x hx => hvs x (List.mem_cons_of_mem _ hx))
                      (String.ext h2)
                  rw [hu, htail]

/-- Claim C4 as amended: provided the claim text contains no `'|'` and every
candidate URL is non-empty and contains no `'|'`, the composite key is
injective — two pairs that differ in the claim or in the URL set produce
different keys.  (The counterexample shows this fails once a claim or URL
contains the `'|'` separator.) -/
theorem generateKey_injective_amended (f₁ f₂ : String) (s₁ s₂ : List Source)
    (hf₁ : '|' ∉ f₁.data) (hf₂ : '|' ∉ f₂.data)
    (hu₁ : ∀ s ∈ s₁, '|' ∉ s.url.data ∧ s.url ≠ "")
    (hu₂ : ∀ s ∈ s₂, '|' ∉ s.url.data ∧ s.url ≠ "")
    (hne : f₁ ≠ f₂ ∨
      (s₁.map (fun s => s.url)).toFinset ≠ (s₂.map (fun s => s.url)).toFinset) :
    generateKey f₁ s₁ ≠ generateKey f₂ s₂ := by
  intro h
  have hd : f₁.data ++ '|' :: (joinPipe (sortedUrls s₁)).data
      = f₂.data ++ '|' :: (joinPipe (sortedUrls s₂)).data := by
    have hh := congrArg String.data h
    rw [generateKey, generateKey, String.data_append, String.data_append,
      String.data_append, String.data_append] at hh
    simpa using hh
  obtain ⟨h1, h2⟩ := pipe_split _ _ _ _ hf₁ hf₂ hd
  have hs₁ : ∀ u ∈ sortedUrls s₁, '|' ∉ u.data ∧ u ≠ "" := by
    intro u hu
    have hm : u ∈ s₁.map (fun s => s.url) :=
      (List.perm_insertionSort _ _).mem_iff.mp hu
    obtain ⟨s, hs, rfl⟩ := List.mem_map.mp hm
    exact hu₁ s hs
  have hs₂ : ∀ u ∈ sortedUrls s₂, '|' ∉ u.data ∧ u ≠ "" := by
    intro u hu
    have hm : u ∈ s₂.map (fun s => s.url) :=
      (List.perm_insertionSort _ _).mem_iff.mp hu
    obtain ⟨s, hs, rfl⟩ := List.mem_map.mp hm
    exact hu₂ s hs
  have hjoin : sortedUrls s₁ = sortedUrls s₂ :=
    joinPipe_inj _ _ hs₁ hs₂ (String.ext h2)
  rcases hne with hne | hne
  · exact hne (String.ext h1)
  · apply hne
    calc (s₁.map (fun s => s.url)).toFinset
        = (sortedUrls s₁).toFinset :=
          (List.toFinset_eq_of_perm _ _ (List.perm_insertionSort _ _)).symm
      _ = (sortedUrls s₂).toFinset := by rw [hjoin]
      _ = (s₂.map (fun s => s.url)).toFinset :=
          List.toFinset_eq_of_perm _ _ (List.perm_insertionSort _ _)

/-- Witness for C4's amended claim: two pipe-free pairs differing in the
claim text get distinct keys. -/
theorem generateKey_injective_amended_witness :
    generateKey "a" [{ url := "u" }] ≠ generateKey "b" [{ url := "u" }] :=
  generateKey_injective_amended "a" "b" [{ url := "u" }] [{ url := "u" }]
    (by decide) (by decide)
    (by intro s hs; rw [show s = ({ url := "u" } : Source) by simpa using hs]; exact ⟨by decide, by decide⟩)
    (by intro s hs; rw [show s = ({ url := "u" } : Source) by simpa using hs]; exact ⟨by decide, by decide⟩)
    (Or.inl (by decide))

/-- `domSet` then `domGet` at the same domain yields the stored count. -/
theorem domGet_domSet_self (m : List (String × ℕ)) (d : String) (n : ℕ) :
    domGet (domSet m d n) d = n := by
  induction m with
  | nil => simp [domSet, domGet]
  | cons e rest ih =>
      obtain ⟨d', n'⟩ := e
      by_cases h : d' = d <;> simp [domSet, domGet, h, ih]

/-- `domSet` leaves the counts of other domains unchanged. -/
theorem domGet_domSet_ne (m : List (String × ℕ)) (d : String) (n : ℕ)
    (d' : String) (h : d ≠ d') : domGet (domSet m d n) d' = domGet m d' := by
  induction m with
  | nil => simp [domSet, domGet, h]
  | cons e rest ih =>
      obtain ⟨d'', n''⟩ := e
      by_cases h2 : d'' = d
      · subst h2
        simp [domSet, domGet, h]
      · simp only [domSet, if_neg h2]
        by_cases h3 : d'' = d' <;> simp [domGet, h3, ih]

/-- Admitting one more source of an under-cap domain preserves the per-domain
bookkeeping invariant (for any new `enCount`). -/
theorem dominv_extend (dom : String → String) (maxPD : ℕ) (st : DivState)
    (i : ℕ) (s : Source) (n : ℕ) (h : DomInv dom maxPD st)
    (hcap : ¬ maxPD ≤ domGet st.byDomain (dom s.url)) :
    DomInv dom maxPD
      ⟨domSet st.byDomain (dom s.url) (domGet st.byDomain (dom s.url) + 1),
        st.picked ++ [(i, s)], n⟩ := by
  intro d
  by_cases hd : dom s.url = d
  · subst hd
    refine ⟨?_, ?_⟩
    · show (st.picked ++ [(i, s)]).countP _ = _
      rw [List.countP_append, domGet_domSet_self]
      simp [(h (dom s.url)).1]
    · show domGet _ _ ≤ maxPD
      rw [domGet_domSet_self]
      omega
  · refine ⟨?_, ?_⟩
    · show (st.picked ++ [(i, s)]).countP _ = _
      rw [List.countP_append, domGet_domSet_ne _ _ _ _ hd]
      simp [(h d).1, hd]
    · show domGet _ _ ≤ maxPD
      rw [domGet_domSet_ne _ _ _ _ hd]
      exact (h d).2

/-- The greedy pass preserves the per-domain bookkeeping invariant. -/
theorem pass1_dominv (dom : String → String) (maxPD k : ℕ) :
    ∀ (l : List (ℕ × Source)) (st : DivState), DomInv dom maxPD st →
    DomInv dom maxPD (pass1 dom maxPD k l st) := by
  intro l
  induction l with
  | nil => intro st h; exact h
  | cons p rest ih =>
      obtain ⟨i, s⟩ := p
      intro st h
      simp only [pass1]
      by_cases hcap : maxPD ≤ domGet st.byDomain (dom s.url)
      · rw [if_pos hcap]
        exact ih st h
      · rw [if_neg hcap]
        have h' := dominv_extend dom maxPD st i s
          (st.enCount + (if foreignSrc s then 1 else 0)) h hcap
        by_cases hk : k ≤ (st.picked ++ [(i, s)]).length
        · rw [if_pos hk]
          exact h'
        · rw [if_neg hk]
          exact ih _ h'

/-- The backfill pass preserves the per-domain bookkeeping invariant. -/
theorem pass2_dominv (dom : String → String) (maxPD minEn k : ℕ) :
    ∀ (l : List (ℕ × Source)) (st : DivState), DomInv dom maxPD st →
    DomInv dom maxPD (pass2 dom maxPD minEn k l st) := by
  intro l
  induction l with
  | nil => intro st h; exact h
  | cons p rest ih =>
      obtain ⟨i, s⟩ := p
      intro st h
      simp only [pass2]
      by_cases hin : st.picked.any (fun p => p.1 = i)
      · rw [if_pos hin]
        exact ih st h
      · rw [if_neg hin]
        by_cases hfor : foreignSrc s
        · simp only [hfor, Bool.not_true, Bool.false_eq_true, if_false, ite_false]
          by_cases hcap : maxPD ≤ domGet st.byDomain (dom s.url)
          · rw [if_pos hcap]
            exact ih st h
          · rw [if_neg hcap]
            have h' := dominv_extend dom maxPD st i s (st.enCount + 1) h hcap
            by_cases hstop : minEn ≤ st.enCount + 1 ∨
                k + 3 ≤ (st.picked ++ [(i, s)]).length
            · rw [if_pos hstop]
              exact h'
            · rw [if_neg hstop]
              exact ih _ h'
        · simp only [hfor, Bool.not_false, if_true, ite_true]
          exact ih st h

/-- Claim C6: for every pool, every `k`, every per-domain cap and every
domain, the diversifier's output never contains more than `maxPerDomain`
sources whose URLs resolve to that domain — the cap holds through both the
greedy pass and the foreign backfill pass. -/
theorem diversify_per_domain_cap (dom : String → String) (maxPD minEn : ℕ)
    (sources : List Source) (k : ℕ) (d : String) :
    (diversifySources dom maxPD minEn sources k).countP
      (fun s => decide (dom s.url = d)) ≤ maxPD := by
  have hpicked : ∀ st : DivState, DomInv dom maxPD st →
      (((st.picked.map Prod.snd).take k).countP
        (fun s => decide (dom s.url = d))) ≤ maxPD := by
    intro st hst
    calc ((st.picked.map Prod.snd).take k).countP (fun s => decide (dom s.url = d))
        ≤ (st.picked.map Prod.snd).countP (fun s => decide (dom s.url = d)) :=
          (List.take_sublist _ _).countP_le _
      _ = st.picked.countP (fun p => decide (dom p.2.url = d)) := by
          rw [List.countP_map]
          rfl
      _ = domGet st.byDomain d := (hst d).1
      _ ≤ maxPD := (hst d).2
  have h0 : DomInv dom maxPD ⟨[], [], 0⟩ := by
    intro d'
    exact ⟨rfl, Nat.zero_le _⟩
  unfold diversifySources diversifyPicked
  by_cases hc : (pass1 dom maxPD k sources.enum ⟨[], [], 0⟩).enCount < minEn
  · simp only [hc, if_true, ite_true]
    exact hpicked _ (pass2_dominv dom maxPD minEn k _ _
      (pass1_dominv dom maxPD k _ _ h0))
  · simp only [hc, if_false, ite_false]
    exact hpicked _ (pass1_dominv dom maxPD k _ _ h0)

/-- Counterexample to claim C7: the final `slice(0, k)` can drop the foreign
sources appended by the backfill pass.  With `k = 1`, a CJK source followed by
a foreign source (pool foreign count 1 < minForeignCount 2), the backfill does
append the foreign source, but the returned list is truncated back to the CJK
source alone — even though the per-domain cap would admit the foreign one. -/
theorem diversify_output_misses_foreign :
    ([cjkSrc, engSrc].countP foreignSrc < 2) ∧
    engSrc ∈ [cjkSrc, engSrc] ∧ foreignSrc engSrc = true ∧
    (diversifySources testDom 2 2 [cjkSrc, engSrc] 1).countP
      (fun s => decide (testDom s.url = testDom engSrc.url)) < 2 ∧
    engSrc ∉ diversifySources testDom 2 2 [cjkSrc, engSrc] 1 := by
  decide

/-- The backfill pass only ever appends to the picked list. -/
theorem pass2_picked_extend (dom : String → String) (maxPD minEn k : ℕ) :
    ∀ (l : List (ℕ × Source)) (st : DivState),
    ∃ t, (pass2 dom maxPD minEn k l st).picked = st.picked ++ t := by
  intro l
  induction l with
  | nil => intro st; exact ⟨[], by simp [pass2]⟩
  | cons p rest ih =>
      obtain ⟨i, s⟩ := p
      intro st
      simp only [pass2]
      by_cases hin : st.picked.any (fun p => p.1 = i)
      · rw [if_pos hin]
        exact ih st
      · rw [if_neg hin]
        by_cases hfor : foreignSrc s
        · simp only [hfor, Bool.not_true, Bool.false_eq_true, if_false, ite_false]
          by_cases hcap : maxPD ≤ domGet st.byDomain (dom s.url)
          · rw [if_pos hcap]
            exact ih st
          · rw [if_neg hcap]
            by_cases hstop : minEn ≤ st.enCount + 1 ∨
                k + 3 ≤ (st.picked ++ [(i, s)]).length
            · rw [if_pos hstop]
              exact ⟨[(i, s)], rfl⟩
            · rw [if_neg hstop]
              obtain ⟨t, ht⟩ := ih
                ⟨domSet st.byDomain (dom s.url)
                    (domGet st.byDomain (dom s.url) + 1),
                  st.picked ++ [(i, s)], st.enCount + 1⟩
              exact ⟨(i, s) :: t, by rw [ht]; simp⟩
        · simp only [hfor, Bool.not_false, if_true, ite_true]
          exact ih st

/-- Per-domain counts never decrease across the backfill pass. -/
theorem pass2_domGet_mono (dom : String → String) (maxPD minEn k : ℕ) :
    ∀ (l : List (ℕ × Source)) (st : DivState) (d : String),
    domGet st.byDomain d ≤ domGet (pass2 dom maxPD minEn k l st).byDomain d := by
  intro l
  induction l with
  | nil => intro st d; simp [pass2]
  | cons p rest ih =>
      obtain ⟨i, s⟩ := p
      intro st d
      simp only [pass2]
      by_cases hin : st.picked.any (fun p => p.1 = i)
      · rw [if_pos hin]
        exact ih st d
      · rw [if_neg hin]
        by_cases hfor : foreignSrc s
        · simp only [hfor, Bool.not_true, Bool.false_eq_true, if_false, ite_false]
          by_cases hcap : maxPD ≤ domGet st.byDomain (dom s.url)
          · rw [if_pos hcap]
            exact ih st d
          · rw [if_neg hcap]
            have hstep : domGet st.byDomain d ≤
                domGet (domSet st.byDomain (dom s.url)
                  (domGet st.byDomain (dom s.url) + 1)) d := by
              by_cases hd : dom s.url = d
              · subst hd
                rw [domGet_domSet_self]
                omega
              · rw [domGet_domSet_ne _ _ _ _ hd]
            by_cases hstop : minEn ≤ st.enCount + 1 ∨
                k + 3 ≤ (st.picked ++ [(i, s)]).length
            · rw [if_pos hstop]
              exact hstep
            · rw [if_neg hstop]
              exact le_trans hstep
                (ih ⟨domSet st.byDomain (dom s.url)
                    (domGet st.byDomain (dom s.url) + 1),
                  st.picked ++ [(i, s)], st.enCount + 1⟩ d)
        · simp only [hfor, Bool.not_false, if_true, ite_true]
          exact ih st d

/-- Admitting a fresh pool element preserves diversifier well-formedness
(for any new per-domain table). -/
theorem wfdiv_extend (sources : List Source) (st : DivState)
    (b' : List (String × ℕ)) (i : ℕ) (s : Source) (h : WFdiv sources st)
    (hmem : (i, s) ∈ sources.enum) (hnin : i ∉ st.picked.map Prod.fst) :
    WFdiv sources
      ⟨b', st.picked ++ [(i, s)],
        st.enCount + (if foreignSrc s then 1 else 0)⟩ := by
  obtain ⟨h1, h2, h3⟩ := h
  refine ⟨?_, ?_, ?_⟩
  · intro p hp
    rcases List.mem_append.mp hp with hp | hp
    · exact h1 p hp
    · rw [List.mem_singleton.mp hp]
      exact hmem
  · show ((st.picked ++ [(i, s)]).map Prod.fst).Nodup
    rw [List.map_append]
    exact List.Nodup.append h2 (List.nodup_singleton _)
      (fun a ha hb => hnin (by rwa [List.mem_singleton.mp hb] at ha))
  · show st.enCount + _ = (st.picked ++ [(i, s)]).countP _
    rw [List.countP_append, h3]
    simp [List.countP_cons]

/-- The greedy pass preserves diversifier well-formedness, provided the
remaining pool indices are fresh. -/
theorem pass1_wf (dom : String → String) (maxPD k : ℕ) (sources : List Source) :
    ∀ (l : List (ℕ × Source)) (st : DivState),
    (∀ p ∈ l, p ∈ sources.enum) →
    ((st.picked ++ l).map Prod.fst).Nodup →
    WFdiv sources st → WFdiv sources (pass1 dom maxPD k l st) := by
  intro l
  induction l with
  | nil => intro st _ _ h; exact h
  | cons p rest ih =>
      obtain ⟨i, s⟩ := p
      intro st hsub hnd h
      simp only [pass1]
      have hsub' : ∀ p ∈ rest, p ∈ sources.enum :=
        fun p hp => hsub p (List.mem_cons_of_mem _ hp)
      by_cases hcap : maxPD ≤ domGet st.byDomain (dom s.url)
      · rw [if_pos hcap]
        refine ih st hsub' ?_ h
        refine List.Nodup.sublist (List.Sublist.map _ ?_) hnd
        exact List.Sublist.append_left (List.sublist_cons_self _ _) _
      · rw [if_neg hcap]
        have hnin : i ∉ st.picked.map Prod.fst := by
          rw [List.map_append] at hnd
          intro hmem
          exact (List.disjoint_of_nodup_append hnd) hmem
            (by simp)
        have h' := wfdiv_extend sources st
          (domSet st.byDomain (dom s.url) (domGet st.byDomain (dom s.url) + 1))
          i s h (hsub _ (List.mem_cons_self _ _)) hnin
        by_cases hk : k ≤ (st.picked ++ [(i, s)]).length
        · rw [if_pos hk]
          exact h'
        · rw [if_neg hk]
          refine ih _ hsub' ?_ h'
          show (((st.picked ++ [(i, s)]) ++ rest).map Prod.fst).Nodup
          rw [List.append_assoc]
          exact hnd

/-- The backfill pass preserves diversifier well-formedness (its own guard
keeps indices fresh). -/
theorem pass2_wf (dom : String → String) (maxPD minEn k : ℕ)
    (sources : List Source) :
    ∀ (l : List (ℕ × Source)) (st : DivState),
    (∀ p ∈ l, p ∈ sources.enum) →
    WFdiv sources st → WFdiv sources (pass2 dom maxPD minEn k l st) := by
  intro l
  induction l with
  | nil => intro st _ h; exact h
  | cons p rest ih =>
      obtain ⟨i, s⟩ := p
      intro st hsub h
      simp only [pass2]
      have hsub' : ∀ p ∈ rest, p ∈ sources.enum :=
        fun p hp => hsub p (List.mem_cons_of_mem _ hp)
      by_cases hin : st.picked.any (fun p => p.1 = i)
      · rw [if_pos hin]
        exact ih st hsub' h
      · rw [if_neg hin]
        by_cases hfor : foreignSrc s
        · simp only [hfor, Bool.not_true, Bool.false_eq_true, if_false, ite_false]
          by_cases hcap : maxPD ≤ domGet st.byDomain (dom s.url)
          · rw [if_pos hcap]
            exact ih st hsub' h
          · rw [if_neg hcap]
            have hnin : i ∉ st.picked.map Prod.fst := by
              intro hmem
              obtain ⟨p, hp, hpi⟩ := List.mem_map.mp hmem
              exact hin (List.any_eq_true.mpr ⟨p, hp, by simp [hpi]⟩)
            have h' := wfdiv_extend sources st
              (domSet st.byDomain (dom s.url)
                (domGet st.byDomain (dom s.url) + 1))
              i s h (hsub _ (List.mem_cons_self _ _)) hnin
            rw [if_pos hfor] at h'
            by_cases hstop : minEn ≤ st.enCount + 1 ∨
                k + 3 ≤ (st.picked ++ [(i, s)]).length
            · rw [if_pos hstop]
              exact h'
            · rw [if_neg hstop]
              exact ih _ hsub' h'
        · simp only [hfor, Bool.not_false, if_true, ite_true]
          exact ih st hsub' h

/-- Counting over an enumerated list by the payload equals counting the
underlying list. -/
theorem countP_enumFrom (q : Source → Bool) :
    ∀ (l : List Source) (n : ℕ),
    (List.enumFrom n l).countP (fun p => q p.2) = l.countP q := by
  intro l
  induction l with
  | nil => intro n; rfl
  | cons x xs ih =>
      intro n
      simp [List.enumFrom, List.countP_cons, ih]

/-- The English-like count of a well-formed diversifier state never exceeds
the pool's foreign-source count. -/
theorem wf_enCount_le (sources : List Source) (st : DivState)
    (h : WFdiv sources st) : st.enCount ≤ sources.countP foreignSrc := by
  obtain ⟨h1, h2, h3⟩ := h
  rw [h3]
  have hsp : List.Subperm st.picked sources.enum :=
    (h2.of_map Prod.fst).subperm (fun x hx => h1 x hx)
  calc st.picked.countP (fun p => foreignSrc p.2)
      ≤ sources.enum.countP (fun p => foreignSrc p.2) := hsp.countP_le _
    _ = sources.countP foreignSrc := by
        rw [List.enum_eq_enumFrom]
        exact countP_enumFrom foreignSrc sources 0

/-- Pool indices determine pool elements. -/
theorem enum_fst_inj (l : List Source) (i : ℕ) (a b : Source)
    (ha : (i, a) ∈ l.enum) (hb : (i, b) ∈ l.enum) : a = b := by
  have h1 := List.mem_enum_iff_getElem?.mp ha
  have h2 := List.mem_enum_iff_getElem?.mp hb
  rw [h1] at h2
  injection h2

/-- Completeness of the backfill pass: when the pool holds fewer foreign
sources than the minimum (so the foreign-minimum break can never fire) and the
run does not reach `k + 3` picked sources, every foreign pool element is
either picked or its domain has hit the per-domain cap. -/
theorem pass2_complete (dom : String → String) (maxPD minEn k : ℕ)
    (sources : List Source)
    (hforeign : sources.countP foreignSrc < minEn) :
    ∀ (l : List (ℕ × Source)) (st : DivState),
    WFdiv sources st → (∀ p ∈ l, p ∈ sources.enum) →
    ∀ i s, foreignSrc s = true → ((i, s) ∈ l ∨ (i, s) ∈ st.picked) →
    (pass2 dom maxPD minEn k l st).picked.length < k + 3 →
    ((i, s) ∈ (pass2 dom maxPD minEn k l st).picked ∨
      maxPD ≤ domGet (pass2 dom maxPD minEn k l st).byDomain (dom s.url)) := by
  intro l
  induction l with
  | nil =>
      intro st _ _ i s _ hmem _
      rcases hmem with hmem | hmem
      · cases hmem
      · exact Or.inl hmem
  | cons p rest ih =>
      obtain ⟨j, s'⟩ := p
      intro st hwf hsub i s hf hmem hlen
      have hsub' : ∀ p ∈ rest, p ∈ sources.enum :=
        fun p hp => hsub p (List.mem_cons_of_mem _ hp)
      have henum : (j, s') ∈ sources.enum := hsub _ (List.mem_cons_self _ _)
      simp only [pass2] at hlen ⊢
      by_cases hin : st.picked.any (fun p => p.1 = j)
      · rw [if_pos hin] at hlen ⊢
        refine ih st hwf hsub' i s hf ?_ hlen
        rcases hmem with hmem | hmem
        · rcases List.mem_cons.mp hmem with heq | hmem'
          · obtain ⟨p, hp, hpj⟩ := List.any_eq_true.mp hin
            rw [decide_eq_true_eq] at hpj
            obtain ⟨hij, hss⟩ := Prod.mk.injEq .. ▸ heq
            have hpe : p ∈ sources.enum := hwf.1 p hp
            have hps : p = (j, p.2) := by
              rw [← hpj]
            have hs2 : p.2 = s' := by
              apply enum_fst_inj sources j p.2 s' _ henum
              rw [← hps]
              exact hpe
            right
            have : (j, s') ∈ st.picked := by
              rw [← hs2, ← hps]
              exact hp
            rw [hij, hss]
            exact this
          · exact Or.inl hmem'
        · exact Or.inr hmem
      · rw [if_neg hin] at hlen ⊢
        by_cases hfor : foreignSrc s'
        · simp only [hfor, Bool.not_true, Bool.false_eq_true, if_false,
            ite_false] at hlen ⊢
          by_cases hcap : maxPD ≤ domGet st.byDomain (dom s'.url)
          · rw [if_pos hcap] at hlen ⊢
            rcases hmem with hmem | hmem
            · rcases List.mem_cons.mp hmem with heq | hmem'
              · obtain ⟨hij, hss⟩ := Prod.mk.injEq .. ▸ heq
                right
                rw [hss]
                exact le_trans hcap (pass2_domGet_mono dom maxPD minEn k rest st
                  (dom s'.url))
              · exact ih st hwf hsub' i s hf (Or.inl hmem') hlen
            · exact ih st hwf hsub' i s hf (Or.inr hmem) hlen
          · rw [if_neg hcap] at hlen ⊢
            have hnin : j ∉ st.picked.map Prod.fst := by
              intro hmj
              obtain ⟨p, hp, hpj⟩ := List.mem_map.mp hmj
              exact hin (List.any_eq_true.mpr ⟨p, hp, by simp [hpj]⟩)
            have hwf' := wfdiv_extend sources st
              (domSet st.byDomain (dom s'.url)
                (domGet st.byDomain (dom s'.url) + 1))
              j s' hwf henum hnin
            rw [if_pos hfor] at hwf'
            by_cases hstop : minEn ≤ st.enCount + 1 ∨
                k + 3 ≤ (st.picked ++ [(j, s')]).length
            · rw [if_pos hstop] at hlen ⊢
              exfalso
              rcases hstop with hstop | hstop
              · have hle := wf_enCount_le sources _ hwf'
                have : st.enCount + 1 ≤ sources.countP foreignSrc := hle
                omega
              · have : (st.picked ++ [(j, s')]).length < k + 3 := hlen
                omega
            · rw [if_neg hstop] at hlen ⊢
              refine ih _ hwf' hsub' i s hf ?_ hlen
              rcases hmem with hmem | hmem
              · rcases List.mem_cons.mp hmem with heq | hmem'
                · right
                  show (i, s) ∈ st.picked ++ [(j, s')]
                  rw [heq]
                  exact List.mem_append_right _ (List.mem_cons_self _ _)
                · exact Or.inl hmem'
              · right
                exact List.mem_append_left _ hmem
        · simp only [hfor, Bool.not_false, if_true, ite_true] at hlen ⊢
          refine ih st hwf hsub' i s hf ?_ hlen
          rcases hmem with hmem | hmem
          · rcases List.mem_cons.mp hmem with heq | hmem'
            · exfalso
              obtain ⟨hij, hss⟩ := Prod.mk.injEq .. ▸ heq
              rw [hss] at hf
              exact hfor hf
            · exact Or.inl hmem'
          · exact Or.inr hmem

/-- Claim C7 as amended: for a pool with fewer than `minForeignCount` foreign
sources, the backfill pass does select every foreign pool source that the
per-domain cap admits into the internal `picked` list (as long as that list
stays below `k + 3`), but the function then returns `picked.slice(0, k)`, so
the *returned* list has at most `k` (hence at most `k + 3`) elements and may
omit backfilled foreign sources — which the counterexample exhibits. -/
theorem diversify_backfill_amended (dom : String → String) (maxPD minEn k : ℕ)
    (sources : List Source)
    (hforeign : sources.countP foreignSrc < minEn)
    (hlen : (diversifyPicked dom maxPD minEn sources k).length < k + 3)
    (i : ℕ) (s : Source) (hmem : (i, s) ∈ sources.enum)
    (hf : foreignSrc s = true)
    (hcap : (diversifyPicked dom maxPD minEn sources k).countP
      (fun p => decide (dom p.2.url = dom s.url)) < maxPD) :
    (i, s) ∈ diversifyPicked dom maxPD minEn sources k ∧
    (diversifySources dom maxPD minEn sources k).length ≤ k + 3 := by
  constructor
  · have h0 : WFdiv sources ⟨[], [], 0⟩ := by
      refine ⟨fun p hp => absurd hp (List.not_mem_nil p), List.nodup_nil, rfl⟩
    have hd0 : DomInv dom maxPD ⟨[], [], 0⟩ := fun d => ⟨rfl, Nat.zero_le _⟩
    have hwf1 : WFdiv sources (pass1 dom maxPD k sources.enum ⟨[], [], 0⟩) := by
      apply pass1_wf dom maxPD k sources sources.enum _ (fun p hp => hp) _ h0
      show ((([] : List (ℕ × Source)) ++ sources.enum).map Prod.fst).Nodup
      rw [List.nil_append, List.enum_map_fst]
      exact List.nodup_range _
    have hcond : (pass1 dom maxPD k sources.enum ⟨[], [], 0⟩).enCount < minEn :=
      lt_of_le_of_lt (wf_enCount_le sources _ hwf1) hforeign
    unfold diversifyPicked at hlen hcap ⊢
    simp only [hcond, if_true, ite_true] at hlen hcap ⊢
    have hres := pass2_complete dom maxPD minEn k sources hforeign sources.enum
      (pass1 dom maxPD k sources.enum ⟨[], [], 0⟩) hwf1 (fun p hp => hp)
      i s hf (Or.inl hmem) hlen
    rcases hres with hres | hres
    · exact hres
    · exfalso
      have hdi := pass2_dominv dom maxPD minEn k sources.enum _
        (pass1_dominv dom maxPD k sources.enum _ hd0)
      have heq := (hdi (dom s.url)).1
      omega
  · calc (diversifySources dom maxPD minEn sources k).length
        ≤ k := List.length_take_le _ _
    _ ≤ k + 3 := by omega

/-- Witness for C7's amended claim: a pool of one foreign source with
`minForeignCount = 2` — the source is selected by the backfill-aware pass and
the output length bound holds. -/
theorem diversify_backfill_amended_witness :
    (0, engSrc) ∈ diversifyPicked testDom 2 2 [engSrc] 5 ∧
    (diversifySources testDom 2 2 [engSrc] 5).length ≤ 5 + 3 :=
  diversify_backfill_amended testDom 2 2 5 [engSrc] (by decide) (by decide)
    0 engSrc (by decide) (by decide) (by decide)

end MACli
